import Mathlib

set_option maxHeartbeats 1000000

/-!
Verification of the Pascal-simplex hyperplane-sum repository.

The Python notebook defines four operations:
* `createPascalSimplex(layers, dimension)` builds the nested simplex,
* `calculate_sum_nested_list(nested_list)` flatten-sums a nested list,
* `calculateHypersumsInPascalSimplex(simplex, m)` walks each layer with
  candidate index `idx = layer - i*m`,
* `calculateSequence(dimension, m, k)` produces the closed-form sequence,
* `validateFormula(maxD, maxM, maxK)` cross-checks the two.

Python values inside a simplex are either plain ints or nested lists, so
simplex entries are embedded as the inductive `PyVal`.  Arbitrary-precision
Python integers become `Nat` (all quantities here are non-negative), and the
unbounded `while` loop of the hypersum calculator is embedded with an explicit
fuel parameter that is provably sufficient whenever the slope is at least 1.
-/

/-- A Python value stored in a simplex: a bare integer or a nested list. -/
inductive PyVal where
  | int : Nat → PyVal
  | list : List PyVal → PyVal

/-- The precomputed factorial table `fact` of `createPascalSimplex`:
`fact = [1]*layers; for i in range(1, layers): fact[i] = fact[i-1]*i`,
so `fact[i] = i!` for `i < layers`. -/
def factTable (n : Nat) : List Nat :=
  (List.range n).map Nat.factorial

/-- The stack-driven body of `createPascalSimplex.generate_layer`, phrased as
the equivalent depth-first recursion.  The first `Nat` argument is
`dim - 1 - depth`, the number of index levels still to be generated below the
current one; the source's three branches appear in the same order:
* `depth == dim - 1` (0 levels left): emit `fact[x] // (fact_prod * fact[remaining])`;
* `depth + 1 == dim - 1` (1 level left): emit the coefficients
  `fact[x] // (fact_prod * fact[k] * fact[k_last])` for `k` descending
  (`for k in reversed(range(remaining + 1))`), `k_last = remaining - k`;
* otherwise: one nested sublist per `k`, again for `k` descending. -/
def genEntry (fact : List Nat) (x : Nat) : Nat → Nat → Nat → PyVal
  | 0, remaining, factProd =>
      PyVal.int (fact.getD x 0 / (factProd * fact.getD remaining 0))
  | 1, remaining, factProd =>
      PyVal.list ((List.range (remaining + 1)).reverse.map fun k =>
        PyVal.int (fact.getD x 0 / (factProd * fact.getD k 0 * fact.getD (remaining - k) 0)))
  | r + 2, remaining, factProd =>
      PyVal.list ((List.range (remaining + 1)).reverse.map fun k =>
        genEntry fact x (r + 1) (remaining - k) (factProd * fact.getD k 0))

/-- `generate_layer(x, dim)`: the full layer of degree `x`, starting from
depth 0 with remaining sum `x` and factorial product 1. -/
def generateLayer (fact : List Nat) (x dim : Nat) : PyVal :=
  genEntry fact x (dim - 1) x 1

/-- The list of layers built by the `dimension >= 2` branch of
`createPascalSimplex`: `for x in range(layers): simplex.append(generate_layer(x, dimension))`. -/
def pascalList (layers dimension : Nat) : List PyVal :=
  (List.range layers).map fun x => generateLayer (factTable layers) x dimension

/-- `createPascalSimplex(layers, dimension)`.  Follows the source's branch
order: `dimension < 1` raises `ValueError`, `layers == 0` returns `[]`,
`dimension == 1` returns `[1]*layers`, otherwise the nested layers. -/
def createPascalSimplex (layers dimension : Nat) : Except String (List PyVal) :=
  if dimension < 1 then Except.error "Dimension must be at least 1."
  else if layers = 0 then Except.ok []
  else if dimension = 1 then Except.ok (List.replicate layers (PyVal.int 1))
  else Except.ok (pascalList layers dimension)

/-- `calculate_sum_nested_list(nested_list)`: sum every scalar in a nested
list, recursing into sublists. -/
def calculate_sum_nested_list : List PyVal → Nat
  | [] => 0
  | PyVal.list sub :: rest => calculate_sum_nested_list sub + calculate_sum_nested_list rest
  | PyVal.int n :: rest => n + calculate_sum_nested_list rest

/-- Total of one simplex entry: a bare scalar counts as itself, a nested list
is flatten-summed (the two `isinstance` arms of the sub-value dispatch). -/
def sumVal : PyVal → Nat
  | PyVal.int n => n
  | PyVal.list l => calculate_sum_nested_list l

/-- How one per-layer `while True` walk of `calculateHypersumsInPascalSimplex`
ends: a `break` via `idx < 0` or the bare-scalar case (`normal`), a `break`
via the `except IndexError` handler (`idxError`), or fuel exhaustion, which
marks that the source loop would still be running (`fuelOut`). -/
inductive LoopExit where
  | normal (acc : Nat)
  | idxError (acc : Nat)
  | fuelOut

/-- The inner `while True` loop of `calculateHypersumsInPascalSimplex` for one
`layer`, with step counter `i` and accumulator `acc` (= `plain_sum`):
`idx = layer - i*m`; stop if `idx < 0`; `simplex[idx]` out of range is the
`except IndexError` break; a bare int sets the sum to 1 and stops; a list
contributes `value[i]` (scalar directly, otherwise flatten-summed) when
`i < len(value)` and nothing otherwise, then `i += 1`. -/
def layerLoop (simplex : List PyVal) (m L : Nat) : Nat → Nat → Nat → LoopExit
  | 0, _, _ => LoopExit.fuelOut
  | fuel + 1, i, acc =>
    if (L : Int) - (i : Int) * (m : Int) < 0 then LoopExit.normal acc
    else
      match simplex[((L : Int) - (i : Int) * (m : Int)).toNat]? with
      | none => LoopExit.idxError acc
      | some (PyVal.int _) => LoopExit.normal 1
      | some (PyVal.list value) =>
        layerLoop simplex m L fuel (i + 1)
          (match value[i]? with
           | none => acc
           | some (PyVal.int n) => acc + n
           | some (PyVal.list sub) => acc + calculate_sum_nested_list sub)

/-- `calculateHypersumsInPascalSimplex(simplex, m)`: one walk per layer.  Fuel
`simplex.length + 1` is enough for every terminating run with `m >= 1`; an
entry `none` records that the source's loop never breaks for that layer. -/
def calculateHypersumsInPascalSimplex (simplex : List PyVal) (m : Nat) : List (Option Nat) :=
  (List.range simplex.length).map fun layer =>
    match layerLoop simplex m layer (simplex.length + 1) 0 0 with
    | LoopExit.normal a => some a
    | LoopExit.idxError a => some a
    | LoopExit.fuelOut => none

/-- One iteration of the second loop of `calculateSequence`: with `i` equal to
the current length of `res`, append `res[i-1] + (dimension-1)*res[i-(m+1)]`. -/
def seqStep (dimension m : Nat) (res : List Nat) : List Nat :=
  res ++ [res.getD (res.length - 1) 0 + (dimension - 1) * res.getD (res.length - (m + 1)) 0]

/-- The second loop of `calculateSequence`, run for a given number of steps. -/
def seqExtend (dimension m : Nat) : Nat → List Nat → List Nat
  | 0, res => res
  | steps + 1, res => seqExtend dimension m steps (seqStep dimension m res)

/-- `calculateSequence(dimension, m, k)`: `min(k, m+1)` initial ones, then the
recurrence loop for `i in range(m+1, k)`. -/
def calculateSequence (dimension m k : Nat) : List Nat :=
  seqExtend dimension m (k - min k (m + 1)) (List.replicate (min k (m + 1)) 1)

/-- `validateFormula(maxD, maxM, maxK)`: for every `d in range(1, maxD)`,
`m in range(1, maxM)`, `k in range(1, maxK)`, build the simplex, compute its
hypersums, and compare with `calculateSequence(d, m, k)`; the overall result
is the conjunction of all the comparisons. -/
def validateFormula (maxD maxM maxK : Nat) : Bool :=
  (List.range' 1 (maxD - 1)).all fun d =>
    (List.range' 1 (maxM - 1)).all fun m =>
      (List.range' 1 (maxK - 1)).all fun k =>
        match createPascalSimplex k d with
        | Except.error _ => false
        | Except.ok simplex =>
          calculateHypersumsInPascalSimplex simplex m == (calculateSequence d m k).map some

/-- Descend into a nested simplex entry along a list of positions. -/
def getEntry : PyVal → List Nat → Option PyVal
  | v, [] => some v
  | PyVal.list l, p :: ps =>
      match l[p]? with
      | some v => getEntry v ps
      | none => none
  | PyVal.int _, _ :: _ => none

/-- Positions addressing the multi-index `(k_1, ..., k_{d-1})` under the
builder's descending per-level ordering: with `budget` remaining at a level,
the part `k` sits at position `budget - k`, and the remaining budget below it
is `budget - k`. -/
def positionsOf (budget : Nat) : List Nat → List Nat
  | [] => []
  | k :: ks => (budget - k) :: positionsOf (budget - k) ks

/-- Product of factorials of a list of parts (the accumulated `fact_prod`). -/
def prodFact (c : List Nat) : Nat := (c.map Nat.factorial).prod

/-- `genEntry` with every floor division `fact[x] // den` replaced by a
checked exact division that fails (`none`) whenever `den` leaves a remainder. -/
def genEntryChecked (fact : List Nat) (x : Nat) : Nat → Nat → Nat → Option PyVal
  | 0, remaining, factProd =>
      if fact.getD x 0 % (factProd * fact.getD remaining 0) = 0 then
        some (PyVal.int (fact.getD x 0 / (factProd * fact.getD remaining 0)))
      else none
  | 1, remaining, factProd =>
      ((List.range (remaining + 1)).reverse.mapM fun k =>
        if fact.getD x 0 % (factProd * fact.getD k 0 * fact.getD (remaining - k) 0) = 0 then
          some (PyVal.int
            (fact.getD x 0 / (factProd * fact.getD k 0 * fact.getD (remaining - k) 0)))
        else none).map PyVal.list
  | r + 2, remaining, factProd =>
      ((List.range (remaining + 1)).reverse.mapM fun k =>
        genEntryChecked fact x (r + 1) (remaining - k) (factProd * fact.getD k 0)).map PyVal.list

/-- The closed-form sequence value: 1 on the first `m + 1` indices, then
`seqF (n-1) + (dimension-1) * seqF (n-(m+1))`. -/
def seqF (dimension m : Nat) (n : Nat) : Nat :=
  if n < m + 1 then 1
  else seqF dimension m (n - 1) + (dimension - 1) * seqF dimension m (n - (m + 1))
termination_by n
decreasing_by
  all_goals omega

/-- Closed form of a layer's hypersum in dimension `d >= 2`:
`∑ i, C(L - i*m, i) * (d-1)^i` (terms with `i*(m+1) > L` vanish). -/
def hyperFormula (d m L : Nat) : Nat :=
  ∑ i ∈ Finset.range (L + 1), Nat.choose (L - i * m) i * (d - 1) ^ i

/-! ## Basic list helpers -/

lemma getD_map_range (f : Nat → Nat) {t j : Nat} (h : t < j) :
    ((List.range j).map f).getD t 0 = f t := by
  rw [List.getD_eq_getElem?_getD, List.getElem?_map, List.getElem?_range h]
  rfl

lemma factTable_getD {n i : Nat} (h : i < n) :
    (factTable n).getD i 0 = Nat.factorial i :=
  getD_map_range Nat.factorial h

lemma revRange_getElem? {n i : Nat} (h : i ≤ n) :
    (List.range (n + 1)).reverse[i]? = some (n - i) := by
  have hlen : (List.range (n + 1)).reverse.length = n + 1 := by simp
  have hi : i < (List.range (n + 1)).reverse.length := by omega
  rw [List.getElem?_eq_getElem hi, List.getElem_reverse]
  simp

lemma mapRevRange_getElem? {α : Type} (f : Nat → α) {n i : Nat} (h : i ≤ n) :
    ((List.range (n + 1)).reverse.map f)[i]? = some (f (n - i)) := by
  rw [List.getElem?_map, revRange_getElem? h]
  rfl

lemma list_sum_map_range (f : Nat → Nat) (n : Nat) :
    ((List.range n).map f).sum = ∑ i ∈ Finset.range n, f i := by
  induction n with
  | zero => simp
  | succ n ih => rw [List.range_succ, List.map_append, List.sum_append, Finset.sum_range_succ, ih]; simp

lemma list_sum_map_revRange (f : Nat → Nat) (n : Nat) :
    ((List.range n).reverse.map f).sum = ∑ i ∈ Finset.range n, f i := by
  rw [List.map_reverse, List.sum_reverse, list_sum_map_range]

lemma csnl_eq_map_sum (l : List PyVal) :
    calculate_sum_nested_list l = (l.map sumVal).sum := by
  induction l with
  | nil => simp [calculate_sum_nested_list]
  | cons v rest ih =>
    cases v with
    | int n => simp [calculate_sum_nested_list, sumVal, ih]
    | list sub => simp [calculate_sum_nested_list, sumVal, ih]

/-! ## Multinomial divisibility -/

lemma prodFact_pos (c : List Nat) : 0 < prodFact c := by
  induction c with
  | nil => simp [prodFact]
  | cons a c ih =>
    have := Nat.factorial_pos a
    simp only [prodFact, List.map_cons, List.prod_cons]
    exact Nat.mul_pos this ih

lemma prodFact_cons (a : Nat) (c : List Nat) :
    prodFact (a :: c) = Nat.factorial a * prodFact c := by
  simp [prodFact]

/-- The accumulated factorial product times the factorial of the remaining
budget always divides `x!` — the multinomial divisibility invariant. -/
lemma prodFact_mul_factorial_dvd {c : List Nat} {rem x : Nat} (h : c.sum + rem = x) :
    prodFact c * Nat.factorial rem ∣ Nat.factorial x := by
  induction c generalizing rem with
  | nil =>
    simp only [List.sum_nil, Nat.zero_add] at h
    subst h
    simp [prodFact]
  | cons a c ih =>
    have hsum : c.sum + (a + rem) = x := by simp at h; omega
    have h1 : prodFact c * Nat.factorial (a + rem) ∣ Nat.factorial x := ih hsum
    have h2 : Nat.factorial a * Nat.factorial rem ∣ Nat.factorial (a + rem) :=
      Nat.factorial_mul_factorial_dvd_factorial_add a rem
    calc prodFact (a :: c) * Nat.factorial rem
        = prodFact c * (Nat.factorial a * Nat.factorial rem) := by
          rw [prodFact_cons]; ring
      _ ∣ prodFact c * Nat.factorial (a + rem) := Nat.mul_dvd_mul_left _ h2
      _ ∣ Nat.factorial x := h1

/-- Evaluating the exact division: splitting the remaining budget `rem` into
`k` and `rem - k` multiplies the quotient by a binomial coefficient. -/
lemma factorial_div_split {c : List Nat} {rem x : Nat} (h : c.sum + rem = x)
    {k : Nat} (hk : k ≤ rem) :
    Nat.factorial x / (prodFact c * Nat.factorial k * Nat.factorial (rem - k)) =
      Nat.factorial x / (prodFact c * Nat.factorial rem) * Nat.choose rem k := by
  have hdvd := prodFact_mul_factorial_dvd h
  have hx : Nat.factorial x / (prodFact c * Nat.factorial rem) *
      (prodFact c * Nat.factorial rem) = Nat.factorial x := Nat.div_mul_cancel hdvd
  have hrem : Nat.choose rem k * Nat.factorial k * Nat.factorial (rem - k) =
      Nat.factorial rem := Nat.choose_mul_factorial_mul_factorial hk
  have hpos : 0 < prodFact c * Nat.factorial k * Nat.factorial (rem - k) :=
    Nat.mul_pos (Nat.mul_pos (prodFact_pos c) (Nat.factorial_pos k)) (Nat.factorial_pos (rem - k))
  have hfact : Nat.factorial x =
      prodFact c * Nat.factorial k * Nat.factorial (rem - k) *
        (Nat.factorial x / (prodFact c * Nat.factorial rem) * Nat.choose rem k) := by
    calc Nat.factorial x
        = Nat.factorial x / (prodFact c * Nat.factorial rem) *
            (prodFact c * Nat.factorial rem) := hx.symm
      _ = Nat.factorial x / (prodFact c * Nat.factorial rem) *
            (prodFact c * (Nat.choose rem k * Nat.factorial k * Nat.factorial (rem - k))) := by
          rw [hrem]
      _ = prodFact c * Nat.factorial k * Nat.factorial (rem - k) *
            (Nat.factorial x / (prodFact c * Nat.factorial rem) * Nat.choose rem k) := by
          ring
  conv_lhs => rw [hfact]
  rw [Nat.mul_div_cancel_left _ hpos]

/-! ## Flatten-sums of generated subtrees -/

/-- Flatten-sum of a generated subtree with `r + 1` free index levels and
remaining budget `rem`: the compositions of `rem` into `r + 2` parts weighted
by multinomial coefficients sum to `(r + 2) ^ rem` times the common prefix
quotient. -/
lemma sumVal_genEntry {n x : Nat} (hx : x < n) :
    ∀ (r rem : Nat) (c : List Nat), c.sum + rem = x →
      sumVal (genEntry (factTable n) x (r + 1) rem (prodFact c)) =
        Nat.factorial x / (prodFact c * Nat.factorial rem) * (r + 2) ^ rem := by
  intro r
  induction r with
  | zero =>
    intro rem c hc
    have hrem : rem ≤ x := by omega
    have hx0 : (factTable n).getD x 0 = Nat.factorial x := factTable_getD hx
    show sumVal (genEntry (factTable n) x 1 rem (prodFact c)) = _
    rw [genEntry]
    simp only [sumVal, csnl_eq_map_sum, List.map_map]
    rw [list_sum_map_revRange]
    have hpt : ∀ k ∈ Finset.range (rem + 1),
        (sumVal ∘ fun k => PyVal.int ((factTable n).getD x 0 /
            (prodFact c * (factTable n).getD k 0 * (factTable n).getD (rem - k) 0))) k =
          Nat.factorial x / (prodFact c * Nat.factorial rem) * Nat.choose rem k := by
      intro k hk
      have hk' : k ≤ rem := by
        have := Finset.mem_range.mp hk; omega
      have h1 : (factTable n).getD k 0 = Nat.factorial k := factTable_getD (by omega)
      have h2 : (factTable n).getD (rem - k) 0 = Nat.factorial (rem - k) :=
        factTable_getD (by omega)
      simp only [Function.comp, sumVal, hx0, h1, h2]
      exact factorial_div_split hc hk'
    rw [Finset.sum_congr rfl hpt, ← Finset.mul_sum, Nat.sum_range_choose]
  | succ r ih =>
    intro rem c hc
    have hrem : rem ≤ x := by omega
    show sumVal (genEntry (factTable n) x (r + 2) rem (prodFact c)) = _
    rw [genEntry]
    simp only [sumVal, csnl_eq_map_sum, List.map_map]
    rw [list_sum_map_revRange]
    have hpt : ∀ k ∈ Finset.range (rem + 1),
        (sumVal ∘ fun k =>
            genEntry (factTable n) x (r + 1) (rem - k) (prodFact c * (factTable n).getD k 0)) k =
          Nat.factorial x / (prodFact c * Nat.factorial rem) *
            (Nat.choose rem k * (r + 2) ^ (rem - k)) := by
      intro k hk
      have hk' : k ≤ rem := by
        have := Finset.mem_range.mp hk; omega
      have h1 : (factTable n).getD k 0 = Nat.factorial k := factTable_getD (by omega)
      have hck : (k :: c).sum + (rem - k) = x := by simp; omega
      have harg : prodFact c * (factTable n).getD k 0 = prodFact (k :: c) := by
        rw [h1, prodFact_cons]; ring
      simp only [Function.comp, harg]
      rw [ih (rem - k) (k :: c) hck, prodFact_cons]
      have : Nat.factorial x / (Nat.factorial k * prodFact c * Nat.factorial (rem - k)) =
          Nat.factorial x / (prodFact c * Nat.factorial k * Nat.factorial (rem - k)) := by
        ring_nf
      rw [this, factorial_div_split hc hk']
      ring
    rw [Finset.sum_congr rfl hpt, ← Finset.mul_sum]
    congr 1
    have hb := add_pow (1 : Nat) (r + 2) rem
    simp only [one_pow, one_mul, Nat.cast_id] at hb
    have : (1 + (r + 2)) = r + 1 + 2 := by ring
    rw [this] at hb
    rw [hb]
    apply Finset.sum_congr rfl
    intro k hk
    ring

/-- Shape and per-position flatten-sums of a generated subtree: it is a list
of `rem + 1` entries, and the entry at position `i` (which represents part
`k = rem - i` under the descending ordering) flatten-sums to
`C(rem, i) * (r + 1) ^ i` times the common prefix quotient. -/
lemma genEntry_elem {n x : Nat} (hx : x < n) (r rem : Nat) (c : List Nat)
    (hc : c.sum + rem = x) :
    ∃ l, genEntry (factTable n) x (r + 1) rem (prodFact c) = PyVal.list l ∧
      l.length = rem + 1 ∧
      ∀ i, i ≤ rem → ∃ v, l[i]? = some v ∧
        sumVal v = Nat.factorial x / (prodFact c * Nat.factorial rem) *
          Nat.choose rem i * (r + 1) ^ i := by
  have hrem : rem ≤ x := by omega
  cases r with
  | zero =>
    refine ⟨_, by rw [genEntry], by simp, ?_⟩
    intro i hi
    refine ⟨_, mapRevRange_getElem? _ hi, ?_⟩
    have h1 : (factTable n).getD (rem - i) 0 = Nat.factorial (rem - i) :=
      factTable_getD (by omega)
    have h2 : (factTable n).getD (rem - (rem - i)) 0 = Nat.factorial i := by
      rw [Nat.sub_sub_self hi]; exact factTable_getD (by omega)
    have hx0 : (factTable n).getD x 0 = Nat.factorial x := factTable_getD hx
    simp only [sumVal, hx0, h1, h2]
    have key := factorial_div_split hc (Nat.sub_le rem i)
    rw [Nat.sub_sub_self hi] at key
    rw [key, Nat.choose_symm hi]
    simp
  | succ r =>
    refine ⟨_, by rw [genEntry], by simp, ?_⟩
    intro i hi
    refine ⟨_, mapRevRange_getElem? _ hi, ?_⟩
    have h1 : (factTable n).getD (rem - i) 0 = Nat.factorial (rem - i) :=
      factTable_getD (by omega)
    have hck : ((rem - i) :: c).sum + (rem - (rem - i)) = x := by
      simp
      omega
    have harg : prodFact c * (factTable n).getD (rem - i) 0 = prodFact ((rem - i) :: c) := by
      rw [h1, prodFact_cons]
      ring
    rw [harg]
    rw [Nat.sub_sub_self hi] at hck
    rw [Nat.sub_sub_self hi]
    rw [sumVal_genEntry hx r i ((rem - i) :: c) hck, prodFact_cons]
    have key := factorial_div_split hc (Nat.sub_le rem i)
    rw [Nat.sub_sub_self hi] at key
    have horder : Nat.factorial x / (Nat.factorial (rem - i) * prodFact c * Nat.factorial i) =
        Nat.factorial x / (prodFact c * Nat.factorial (rem - i) * Nat.factorial i) := by
      ring_nf
    rw [horder, key, Nat.choose_symm hi]

/-! ## Builder branch lemmas -/

lemma createPascalSimplex_dim_zero (layers : Nat) :
    createPascalSimplex layers 0 = Except.error "Dimension must be at least 1." := by
  simp [createPascalSimplex]

lemma createPascalSimplex_one_dim (layers : Nat) :
    createPascalSimplex layers 1 = Except.ok (List.replicate layers (PyVal.int 1)) := by
  rcases Nat.eq_zero_or_pos layers with h | h
  · subst h; simp [createPascalSimplex]
  · simp [createPascalSimplex, Nat.pos_iff_ne_zero.mp h]

lemma createPascalSimplex_two_le {layers d : Nat} (hd : 2 ≤ d) :
    createPascalSimplex layers d = Except.ok (pascalList layers d) := by
  rcases Nat.eq_zero_or_pos layers with h | h
  · subst h; simp [createPascalSimplex, pascalList]; omega
  · have h1 : ¬ d < 1 := by omega
    have h2 : ¬ d = 1 := by omega
    simp [createPascalSimplex, h1, h2, Nat.pos_iff_ne_zero.mp h]

lemma createPascalSimplex_length {layers d : Nat} {s : List PyVal}
    (h : createPascalSimplex layers d = Except.ok s) : s.length = layers := by
  rcases Nat.lt_or_ge d 1 with hd | hd
  · interval_cases d
    rw [createPascalSimplex_dim_zero] at h
    cases h
  · rcases Nat.lt_or_ge d 2 with hd2 | hd2
    · interval_cases d
      rw [createPascalSimplex_one_dim] at h
      cases h
      simp
    · rw [createPascalSimplex_two_le hd2] at h
      cases h
      simp [pascalList]

lemma pascalList_getElem? {layers d j : Nat} (hj : j < layers) :
    (pascalList layers d)[j]? = some (generateLayer (factTable layers) j d) := by
  rw [pascalList, List.getElem?_map, List.getElem?_range hj]
  rfl

/-- Shape of one layer of a `dimension >= 2` simplex: a list of `j + 1`
top-level entries whose entry at position `i` flatten-sums to
`C(j, i) * (d - 1) ^ i`. -/
lemma pascal_layer_shape {layers d j : Nat} (hd : 2 ≤ d) (hj : j < layers) :
    ∃ l, generateLayer (factTable layers) j d = PyVal.list l ∧
      l.length = j + 1 ∧
      ∀ i, i ≤ j → ∃ v, l[i]? = some v ∧
        sumVal v = Nat.choose j i * (d - 1) ^ i := by
  obtain ⟨r, hr⟩ : ∃ r, d = r + 2 := ⟨d - 2, by omega⟩
  subst hr
  have hone : (1 : Nat) = prodFact [] := by simp [prodFact]
  have hgen : generateLayer (factTable layers) j (r + 2) =
      genEntry (factTable layers) j (r + 1) j (prodFact []) := by
    rw [generateLayer, ← hone]
    congr 1
  obtain ⟨l, hl, hlen, helem⟩ :=
    genEntry_elem hj r j ([] : List Nat) (by simp)
  refine ⟨l, by rw [hgen, hl], hlen, ?_⟩
  intro i hi
  obtain ⟨v, hv, hsv⟩ := helem i hi
  refine ⟨v, hv, ?_⟩
  rw [hsv, ← hone, one_mul, Nat.div_self (Nat.factorial_pos j), one_mul]
  norm_num

/-! ## The hypersum walk on a built simplex -/

/-- Value added to the accumulator at step `i` of layer `L`'s walk. -/
lemma layerLoop_pascal {layers d m : Nat} (hd : 2 ≤ d) (hm : 1 ≤ m) {L : Nat} (hL : L < layers) :
    ∀ fuel i acc, L + 1 ≤ fuel + i →
      layerLoop (pascalList layers d) m L (fuel + 1) i acc =
        LoopExit.normal
          (acc + ∑ t ∈ Finset.Ico i (L + 1), Nat.choose (L - t * m) t * (d - 1) ^ t) := by
  intro fuel
  induction fuel with
  | zero =>
    intro i acc hfuel
    have hgt : L < i * m := by
      have : i ≤ i * m := Nat.le_mul_of_pos_right i (by omega)
      omega
    have hcond : (L : Int) - (i : Int) * (m : Int) < 0 := by
      have hmul : ((i : Int) * (m : Int)) = ((i * m : Nat) : Int) := by push_cast; ring
      rw [hmul]; omega
    rw [layerLoop, if_pos hcond]
    have hzero : ∑ t ∈ Finset.Ico i (L + 1), Nat.choose (L - t * m) t * (d - 1) ^ t = 0 := by
      apply Finset.sum_eq_zero
      intro t ht
      have hit : i ≤ t := (Finset.mem_Ico.mp ht).1
      have h1 : i * m ≤ t * m := Nat.mul_le_mul_right m hit
      have hi1 : 1 ≤ i := by
        rcases Nat.eq_zero_or_pos i with h | h
        · subst h; omega
        · exact h
      have : L - t * m = 0 := by omega
      rw [this, Nat.choose_eq_zero_of_lt (by omega)]
      ring
    rw [hzero, Nat.add_zero]
  | succ fuel ih =>
    intro i acc hfuel
    by_cases hgt : L < i * m
    · have hcond : (L : Int) - (i : Int) * (m : Int) < 0 := by
        have hmul : ((i : Int) * (m : Int)) = ((i * m : Nat) : Int) := by push_cast; ring
        rw [hmul]; omega
      rw [layerLoop, if_pos hcond]
      have hzero : ∑ t ∈ Finset.Ico i (L + 1), Nat.choose (L - t * m) t * (d - 1) ^ t = 0 := by
        apply Finset.sum_eq_zero
        intro t ht
        have hit : i ≤ t := (Finset.mem_Ico.mp ht).1
        have h1 : i * m ≤ t * m := Nat.mul_le_mul_right m hit
        have hi1 : 1 ≤ i := by
          rcases Nat.eq_zero_or_pos i with h | h
          · subst h; omega
          · exact h
        have : L - t * m = 0 := by omega
        rw [this, Nat.choose_eq_zero_of_lt (by omega)]
        ring
      rw [hzero, Nat.add_zero]
    · have hle : i * m ≤ L := by omega
      have hiL : i ≤ L := by
        have : i ≤ i * m := Nat.le_mul_of_pos_right i (by omega)
        omega
      have hcond : ¬ ((L : Int) - (i : Int) * (m : Int) < 0) := by
        have hmul : ((i : Int) * (m : Int)) = ((i * m : Nat) : Int) := by push_cast; ring
        rw [hmul]; omega
      have htn : ((L : Int) - (i : Int) * (m : Int)).toNat = L - i * m := by
        have hmul : ((i : Int) * (m : Int)) = ((i * m : Nat) : Int) := by push_cast; ring
        rw [hmul]; omega
      obtain ⟨l, hlay, hlen, helem⟩ := pascal_layer_shape hd (show L - i * m < layers by omega)
      have hget : (pascalList layers d)[((L : Int) - (i : Int) * (m : Int)).toNat]? =
          some (PyVal.list l) := by
        rw [htn, pascalList_getElem? (by omega), hlay]
      rw [layerLoop, if_neg hcond, hget]
      show layerLoop (pascalList layers d) m L (fuel + 1) (i + 1)
          (match l[i]? with
           | none => acc
           | some (PyVal.int n) => acc + n
           | some (PyVal.list sub) => acc + calculate_sum_nested_list sub) = _
      have hstep :
          (match l[i]? with
           | none => acc
           | some (PyVal.int n) => acc + n
           | some (PyVal.list sub) => acc + calculate_sum_nested_list sub) =
            acc + Nat.choose (L - i * m) i * (d - 1) ^ i := by
        by_cases hib : i ≤ L - i * m
        · obtain ⟨v, hv, hsv⟩ := helem i hib
          rw [hv]
          cases v with
          | int n => simpa [sumVal] using congrArg (acc + ·) hsv
          | list sub => simpa [sumVal] using congrArg (acc + ·) hsv
        · have hnone : l[i]? = none := by
            apply List.getElem?_eq_none
            omega
          rw [hnone, Nat.choose_eq_zero_of_lt (by omega)]
          ring_nf
      rw [hstep, ih (i + 1) (acc + Nat.choose (L - i * m) i * (d - 1) ^ i) (by omega)]
      congr 1
      rw [Finset.sum_eq_sum_Ico_succ_bot (show i < L + 1 by omega)]
      ring

/-- Hypersums of a `dimension >= 2` simplex are given by `hyperFormula`. -/
lemma hypersums_pascal {layers d m : Nat} (hd : 2 ≤ d) (hm : 1 ≤ m) :
    calculateHypersumsInPascalSimplex (pascalList layers d) m =
      (List.range layers).map fun L => some (hyperFormula d m L) := by
  rw [calculateHypersumsInPascalSimplex]
  have hlen : (pascalList layers d).length = layers := by simp [pascalList]
  rw [hlen]
  apply List.map_congr_left
  intro L hL
  have hL' : L < layers := List.mem_range.mp hL
  rw [layerLoop_pascal hd hm hL' layers 0 0 (by omega)]
  show some _ = _
  rw [hyperFormula, Finset.range_eq_Ico, Nat.zero_add]

/-! ## The closed-form sequence -/

lemma seqF_of_lt {d m n : Nat} (h : n < m + 1) : seqF d m n = 1 := by
  rw [seqF, if_pos h]

lemma seqF_of_ge {d m n : Nat} (h : m + 1 ≤ n) :
    seqF d m n = seqF d m (n - 1) + (d - 1) * seqF d m (n - (m + 1)) := by
  rw [seqF, if_neg (by omega)]

lemma hyperFormula_zero_ext {d m N n : Nat} (h : N + 1 ≤ n) :
    ∑ i ∈ Finset.range n, Nat.choose (N - i * m) i * (d - 1) ^ i = hyperFormula d m N := by
  rw [hyperFormula]
  symm
  apply Finset.sum_subset (Finset.range_subset.mpr h)
  intro i hi hni
  have h1 : N + 1 ≤ i := by
    simp only [Finset.mem_range, Nat.not_lt] at hni
    omega
  rw [Nat.choose_eq_zero_of_lt (by omega)]
  ring

lemma hyperFormula_small {d m L : Nat} (h : L ≤ m) : hyperFormula d m L = 1 := by
  rw [hyperFormula]
  rw [Finset.sum_eq_single 0]
  · simp
  · intro b hb hb0
    have hb1 : 1 ≤ b := by omega
    have hbm : m ≤ b * m := Nat.le_mul_of_pos_left m (by omega)
    have : L - b * m = 0 := by omega
    rw [this, Nat.choose_eq_zero_of_lt (by omega)]
    ring
  · intro h0
    simp at h0

/-- Pascal-rule step for the terms of `hyperFormula`, valid whenever `m ≤ L`;
all truncated-subtraction corner cases degenerate to `0 = 0 + 0`. -/
lemma choose_step {m L : Nat} (hL : m ≤ L) (i : Nat) :
    Nat.choose (L + 1 - (i + 1) * m) (i + 1) =
      Nat.choose (L - (i + 1) * m) (i + 1) + Nat.choose (L - m - i * m) i := by
  have hexp : (i + 1) * m = i * m + m := by ring
  by_cases hc : (i + 1) * m ≤ L
  · have h1 : L + 1 - (i + 1) * m = (L - (i + 1) * m) + 1 := by omega
    have h2 : L - m - i * m = L - (i + 1) * m := by omega
    rw [h1, h2, Nat.choose_succ_succ]
    exact Nat.add_comm _ _
  · rcases Nat.eq_zero_or_pos i with hi | hi
    · subst hi
      simp only [Nat.zero_add, one_mul] at hc
      omega
    · have h1 : L - (i + 1) * m = 0 := by omega
      have h2 : L + 1 - (i + 1) * m = 0 := by omega
      have h3 : L - m - i * m = 0 := by omega
      rw [h1, h2, h3, Nat.choose_eq_zero_of_lt (show 0 < i + 1 by omega),
        Nat.choose_eq_zero_of_lt hi]

/-- The sequence of hyperplane sums obeys the closed-form recurrence. -/
lemma hyperFormula_rec {d m L : Nat} (hm : 1 ≤ m) (hL : m ≤ L) :
    hyperFormula d m (L + 1) = hyperFormula d m L + (d - 1) * hyperFormula d m (L - m) := by
  have hmain : hyperFormula d m (L + 1) =
      (∑ i ∈ Finset.range (L + 1),
        Nat.choose (L + 1 - (i + 1) * m) (i + 1) * (d - 1) ^ (i + 1)) + 1 := by
    rw [hyperFormula, Finset.sum_range_succ']
    simp
  rw [hmain]
  have hsplit : ∀ i ∈ Finset.range (L + 1),
      Nat.choose (L + 1 - (i + 1) * m) (i + 1) * (d - 1) ^ (i + 1) =
        Nat.choose (L - (i + 1) * m) (i + 1) * (d - 1) ^ (i + 1) +
          (d - 1) * (Nat.choose (L - m - i * m) i * (d - 1) ^ i) := by
    intro i hi
    rw [choose_step hL i]
    ring
  rw [Finset.sum_congr rfl hsplit, Finset.sum_add_distrib]
  have hfirst : hyperFormula d m L = (∑ i ∈ Finset.range (L + 1),
      Nat.choose (L - (i + 1) * m) (i + 1) * (d - 1) ^ (i + 1)) + 1 := by
    rw [← hyperFormula_zero_ext (show L + 1 ≤ L + 2 by omega), Finset.sum_range_succ']
    simp
  have hsecond : ∑ i ∈ Finset.range (L + 1),
      (d - 1) * (Nat.choose (L - m - i * m) i * (d - 1) ^ i) =
        (d - 1) * hyperFormula d m (L - m) := by
    rw [← Finset.mul_sum]
    congr 1
    exact hyperFormula_zero_ext (by omega)
  rw [hfirst, ← hsecond]
  ring

/-- The hypersum closed form equals the recurrence sequence. -/
lemma hyperFormula_eq_seqF {d m : Nat} (hm : 1 ≤ m) (L : Nat) :
    hyperFormula d m L = seqF d m L := by
  induction L using Nat.strong_induction_on with
  | _ L ih =>
    by_cases h : L < m + 1
    · rw [hyperFormula_small (by omega), seqF_of_lt h]
    · obtain ⟨p, rfl⟩ : ∃ p, L = p + 1 := ⟨L - 1, by omega⟩
      rw [hyperFormula_rec hm (by omega), seqF_of_ge (by omega), Nat.add_sub_cancel]
      rw [show p + 1 - (m + 1) = p - m from by omega]
      rw [ih p (by omega), ih (p - m) (by omega)]

lemma map_range_seqF_replicate {d m j : Nat} (h : j ≤ m + 1) :
    (List.range j).map (seqF d m) = List.replicate j 1 := by
  apply List.eq_replicate_iff.mpr
  constructor
  · simp
  · intro b hb
    obtain ⟨t, ht, rfl⟩ := List.mem_map.mp hb
    have : t < j := List.mem_range.mp ht
    exact seqF_of_lt (by omega)

lemma seqExtend_inv {d m : Nat} : ∀ steps j, m + 1 ≤ j →
    seqExtend d m steps ((List.range j).map (seqF d m)) =
      (List.range (j + steps)).map (seqF d m) := by
  intro steps
  induction steps with
  | zero =>
    intro j hj
    rw [seqExtend, Nat.add_zero]
  | succ steps ih =>
    intro j hj
    rw [seqExtend]
    have hstep : seqStep d m ((List.range j).map (seqF d m)) =
        (List.range (j + 1)).map (seqF d m) := by
      rw [seqStep]
      have hlen : ((List.range j).map (seqF d m)).length = j := by simp
      rw [hlen]
      have h1 : ((List.range j).map (seqF d m)).getD (j - 1) 0 = seqF d m (j - 1) :=
        getD_map_range _ (by omega)
      have h2 : ((List.range j).map (seqF d m)).getD (j - (m + 1)) 0 = seqF d m (j - (m + 1)) :=
        getD_map_range _ (by omega)
      rw [h1, h2, List.range_succ, List.map_append]
      congr 1
      rw [List.map_cons, List.map_nil, ← seqF_of_ge hj]
    rw [hstep, ih (j + 1) (by omega), show j + 1 + steps = j + (steps + 1) from by omega]

lemma calculateSequence_eq_map (d m k : Nat) :
    calculateSequence d m k = (List.range k).map (seqF d m) := by
  rw [calculateSequence]
  by_cases h : k ≤ m + 1
  · have hmin : min k (m + 1) = k := by omega
    rw [hmin, Nat.sub_self, seqExtend]
    exact (map_range_seqF_replicate h).symm
  · have hmin : min k (m + 1) = m + 1 := by omega
    rw [hmin, ← map_range_seqF_replicate (Nat.le_refl (m + 1)),
      seqExtend_inv (k - (m + 1)) (m + 1) (Nat.le_refl _),
      show m + 1 + (k - (m + 1)) = k from by omega]

lemma seqF_one_dim {m : Nat} (n : Nat) : seqF 1 m n = 1 := by
  induction n using Nat.strong_induction_on with
  | _ n ih =>
    by_cases h : n < m + 1
    · exact seqF_of_lt h
    · rw [seqF_of_ge (by omega), ih (n - 1) (by omega)]
      simp

lemma hypersums_one_dim (k m : Nat) :
    calculateHypersumsInPascalSimplex (List.replicate k (PyVal.int 1)) m =
      List.replicate k (some 1) := by
  rw [calculateHypersumsInPascalSimplex]
  have hlen : (List.replicate k (PyVal.int 1)).length = k := by simp
  rw [hlen]
  have hpt : ∀ L ∈ List.range k,
      (match layerLoop (List.replicate k (PyVal.int 1)) m L (k + 1) 0 0 with
       | LoopExit.normal a => some a
       | LoopExit.idxError a => some a
       | LoopExit.fuelOut => none) = some 1 := by
    intro L hL
    have hLk : L < k := List.mem_range.mp hL
    have hcond : ¬ ((L : Int) - ((0 : Nat) : Int) * (m : Int) < 0) := by
      simp
    have hget : (List.replicate k (PyVal.int 1))[((L : Int) - ((0 : Nat) : Int) * (m : Int)).toNat]? =
        some (PyVal.int 1) := by
      have : ((L : Int) - ((0 : Nat) : Int) * (m : Int)).toNat = L := by simp
      rw [this]
      simp [List.getElem?_replicate, hLk]
    rw [layerLoop, if_neg hcond, hget]
  rw [List.map_congr_left hpt]
  apply List.eq_replicate_iff.mpr
  constructor
  · simp
  · intro b hb
    obtain ⟨t, ht, rfl⟩ := List.mem_map.mp hb
    rfl

/-- Main refinement theorem: on every simplex the builder returns, the
hypersum walk reproduces the closed-form sequence element-wise. -/
lemma hypersums_eq_sequence {d m k : Nat} (hd : 1 ≤ d) (hm : 1 ≤ m) {s : List PyVal}
    (hs : createPascalSimplex k d = Except.ok s) :
    calculateHypersumsInPascalSimplex s m = (calculateSequence d m k).map some := by
  rcases Nat.lt_or_ge d 2 with hd2 | hd2
  · have hd1 : d = 1 := by omega
    subst hd1
    rw [createPascalSimplex_one_dim] at hs
    cases hs
    rw [hypersums_one_dim, calculateSequence_eq_map, List.map_map]
    symm
    apply List.eq_replicate_iff.mpr
    constructor
    · simp
    · intro b hb
      obtain ⟨t, ht, rfl⟩ := List.mem_map.mp hb
      simp [Function.comp, seqF_one_dim]
  · rw [createPascalSimplex_two_le hd2] at hs
    cases hs
    rw [hypersums_pascal hd2 hm, calculateSequence_eq_map, List.map_map]
    apply List.map_congr_left
    intro L hL
    simp only [Function.comp]
    rw [hyperFormula_eq_seqF hm L]

lemma createPascalSimplex_ok {layers d : Nat} (hd : 1 ≤ d) :
    ∃ s, createPascalSimplex layers d = Except.ok s := by
  rcases Nat.lt_or_ge d 2 with hd2 | hd2
  · have : d = 1 := by omega
    subst this
    exact ⟨_, createPascalSimplex_one_dim layers⟩
  · exact ⟨_, createPascalSimplex_two_le hd2⟩

lemma validateFormula_true : validateFormula 10 10 18 = true := by
  rw [validateFormula]
  apply List.all_eq_true.mpr
  intro d hd
  apply List.all_eq_true.mpr
  intro m hm
  apply List.all_eq_true.mpr
  intro k hk
  have hd1 : 1 ≤ d := (List.mem_range'_1.mp hd).1
  have hm1 : 1 ≤ m := (List.mem_range'_1.mp hm).1
  obtain ⟨s, hs⟩ := @createPascalSimplex_ok k d hd1
  rw [hs]
  show (calculateHypersumsInPascalSimplex s m == (calculateSequence d m k).map some) = true
  rw [hypersums_eq_sequence hd1 hm1 hs]
  exact beq_self_eq_true _

/-! ## Entry addressing -/

lemma getEntry_nil (v : PyVal) : getEntry v [] = some v := by
  cases v <;> rfl

lemma getEntry_cons_some {l : List PyVal} {p : Nat} {v : PyVal} (h : l[p]? = some v)
    (ps : List Nat) : getEntry (PyVal.list l) (p :: ps) = getEntry v ps := by
  simp only [getEntry, h]

/-- The scalar reached by following the positions of a multi-index
`(k_1, ..., k_{r+1})` (last part implied) is the corresponding quotient. -/
lemma getEntry_genEntry {n x : Nat} (hx : x < n) :
    ∀ (r rem : Nat) (c ks : List Nat), ks.length = r + 1 → ks.sum ≤ rem → c.sum + rem = x →
      getEntry (genEntry (factTable n) x (r + 1) rem (prodFact c)) (positionsOf rem ks) =
        some (PyVal.int (Nat.factorial x /
          (prodFact c * prodFact ks * Nat.factorial (rem - ks.sum)))) := by
  intro r
  induction r with
  | zero =>
    intro rem c ks hlen hsum hc
    obtain ⟨k, ks0, rfl⟩ : ∃ k ks0, ks = k :: ks0 := by
      cases ks with
      | nil => simp at hlen
      | cons k ks0 => exact ⟨k, ks0, rfl⟩
    have hks0 : ks0 = [] := by
      cases ks0 with
      | nil => rfl
      | cons a t => simp at hlen
    subst hks0
    have hk : k ≤ rem := by simp at hsum; omega
    rw [positionsOf, positionsOf, genEntry]
    rw [getEntry_cons_some (mapRevRange_getElem? _ (Nat.sub_le rem k)) [], getEntry_nil]
    rw [Nat.sub_sub_self hk]
    have h1 : (factTable n).getD (rem - k) 0 = Nat.factorial (rem - k) :=
      factTable_getD (by omega)
    have h2 : (factTable n).getD k 0 = Nat.factorial k := factTable_getD (by omega)
    have hx0 : (factTable n).getD x 0 = Nat.factorial x := factTable_getD hx
    rw [hx0, h1, h2]
    congr 2
    simp [prodFact]
  | succ r ih =>
    intro rem c ks hlen hsum hc
    obtain ⟨k, ks0, rfl⟩ : ∃ k ks0, ks = k :: ks0 := by
      cases ks with
      | nil => simp at hlen
      | cons k ks0 => exact ⟨k, ks0, rfl⟩
    have hlen0 : ks0.length = r + 1 := by simpa using hlen
    have hk : k ≤ rem := by simp at hsum; omega
    have hsum0 : ks0.sum ≤ rem - k := by simp at hsum; omega
    rw [positionsOf, genEntry]
    rw [getEntry_cons_some (mapRevRange_getElem? _ (Nat.sub_le rem k)) _]
    rw [Nat.sub_sub_self hk]
    have h2 : (factTable n).getD k 0 = Nat.factorial k := factTable_getD (by omega)
    have harg : prodFact c * (factTable n).getD k 0 = prodFact (k :: c) := by
      rw [h2, prodFact_cons]; ring
    rw [harg, ih (rem - k) (k :: c) ks0 hlen0 hsum0 (by simp; omega)]
    congr 2
    rw [prodFact_cons, prodFact_cons]
    have hsub : rem - k - ks0.sum = rem - (k :: ks0).sum := by simp; omega
    rw [hsub]
    simp
    ring_nf

/-! ## Checked exact division -/

lemma mapM_option_eq_some {α β : Type} (f : α → Option β) (g : α → β) :
    ∀ l : List α, (∀ a ∈ l, f a = some (g a)) → l.mapM f = some (l.map g) := by
  intro l
  induction l with
  | nil => intro _; rfl
  | cons a t ih =>
    intro h
    rw [List.mapM_cons, h a (by simp), ih fun b hb => h b (by simp [hb])]
    rfl

/-- Every floor division the builder performs is exact: the checked variant
never fails and returns the very same structure. -/
lemma genEntryChecked_eq {n x : Nat} (hx : x < n) :
    ∀ (r rem : Nat) (c : List Nat), c.sum + rem = x →
      genEntryChecked (factTable n) x (r + 1) rem (prodFact c) =
        some (genEntry (factTable n) x (r + 1) rem (prodFact c)) := by
  intro r
  induction r with
  | zero =>
    intro rem c hc
    have hrem : rem ≤ x := by omega
    have hx0 : (factTable n).getD x 0 = Nat.factorial x := factTable_getD hx
    rw [genEntryChecked, genEntry]
    rw [mapM_option_eq_some _ _ _ ?_]
    · rfl
    · intro k hkmem
      have hk : k ≤ rem := by
        have := List.mem_range.mp (List.mem_reverse.mp hkmem)
        omega
      have h1 : (factTable n).getD k 0 = Nat.factorial k := factTable_getD (by omega)
      have h2 : (factTable n).getD (rem - k) 0 = Nat.factorial (rem - k) :=
        factTable_getD (by omega)
      have hdvd : prodFact c * (factTable n).getD k 0 * (factTable n).getD (rem - k) 0 ∣
          (factTable n).getD x 0 := by
        rw [hx0, h1, h2]
        have hsplit : Nat.factorial k * Nat.factorial (rem - k) ∣ Nat.factorial rem := by
          have := Nat.factorial_mul_factorial_dvd_factorial_add k (rem - k)
          rwa [show k + (rem - k) = rem from by omega] at this
        calc prodFact c * Nat.factorial k * Nat.factorial (rem - k)
            = prodFact c * (Nat.factorial k * Nat.factorial (rem - k)) := by ring
          _ ∣ prodFact c * Nat.factorial rem := Nat.mul_dvd_mul_left _ hsplit
          _ ∣ Nat.factorial x := prodFact_mul_factorial_dvd hc
      rw [if_pos (Nat.mod_eq_zero_of_dvd hdvd)]
  | succ r ih =>
    intro rem c hc
    rw [genEntryChecked, genEntry]
    rw [mapM_option_eq_some _ _ _ ?_]
    · rfl
    · intro k hkmem
      have hk : k ≤ rem := by
        have := List.mem_range.mp (List.mem_reverse.mp hkmem)
        omega
      have hrem : rem ≤ x := by omega
      have h1 : (factTable n).getD k 0 = Nat.factorial k := factTable_getD (by omega)
      have harg : prodFact c * (factTable n).getD k 0 = prodFact (k :: c) := by
        rw [h1, prodFact_cons]; ring
      rw [harg]
      exact ih (rem - k) (k :: c) (by simp; omega)

/-! ## Layer contents do not depend on the requested layer count -/

lemma genEntry_table_agnostic {x n np : Nat} (hn : x < n) (hnp : x < np) :
    ∀ (r rem P : Nat), rem ≤ x →
      genEntry (factTable n) x r rem P = genEntry (factTable np) x r rem P := by
  intro r
  induction r with
  | zero =>
    intro rem P hrem
    rw [genEntry, genEntry, factTable_getD hn, factTable_getD hnp,
      factTable_getD (show rem < n by omega), factTable_getD (show rem < np by omega)]
  | succ r ih =>
    intro rem P hrem
    cases r with
    | zero =>
      rw [genEntry, genEntry]
      congr 1
      apply List.map_congr_left
      intro k hkmem
      have hk : k ≤ rem := by
        have := List.mem_range.mp (List.mem_reverse.mp hkmem)
        omega
      rw [factTable_getD hn, factTable_getD hnp,
        factTable_getD (show k < n by omega), factTable_getD (show k < np by omega),
        factTable_getD (show rem - k < n by omega), factTable_getD (show rem - k < np by omega)]
    | succ r =>
      rw [genEntry, genEntry]
      congr 1
      apply List.map_congr_left
      intro k hkmem
      have hk : k ≤ rem := by
        have := List.mem_range.mp (List.mem_reverse.mp hkmem)
        omega
      rw [factTable_getD (show k < n by omega), factTable_getD (show k < np by omega)]
      exact ih (rem - k) (P * Nat.factorial k) (by omega)

/-! ## Claim theorems -/

/-- C1: for every dimension in [1, 10), slope in [1, 10) and length in
[1, 18), `calculateSequence(d, m, k)` is element-wise equal to
`calculateHypersumsInPascalSimplex(createPascalSimplex(k, d), m)`;
consequently `validateFormula(10, 10, 18)` returns true.  (The element-wise
equality is proved for all `d, m ≥ 1` and all `k`.) -/
theorem C1_formula_matches_hypersums :
    (∀ d m k, 1 ≤ d → d < 10 → 1 ≤ m → m < 10 → 1 ≤ k → k < 18 →
      ∀ s, createPascalSimplex k d = Except.ok s →
        (calculateSequence d m k).map some = calculateHypersumsInPascalSimplex s m)
    ∧ validateFormula 10 10 18 = true := by
  constructor
  · intro d m k hd _ hm _ _ _ s hs
    exact (hypersums_eq_sequence hd hm hs).symm
  · exact validateFormula_true

/-- Witness for C1 at dimension 2, slope 1, length 3. -/
theorem C1_witness :
    (calculateSequence 2 1 3).map some =
      calculateHypersumsInPascalSimplex
        [PyVal.list [PyVal.int 1], PyVal.list [PyVal.int 1, PyVal.int 1],
         PyVal.list [PyVal.int 1, PyVal.int 2, PyVal.int 1]] 1 :=
  C1_formula_matches_hypersums.1 2 1 3 (by decide) (by decide) (by decide) (by decide)
    (by decide) (by decide) _ (by rfl)

/-- C2: every scalar of `createPascalSimplex(layers, d)` equals the
multinomial coefficient `x! / (k_1! * ... * k_d!)` of the multi-index
`(k_1, ..., k_{d-1})` it represents within its layer `x`, with the last part
implied as `x - Σ k_i`, under the builder's descending per-level ordering
(position `budget - k` holds part `k`).  The quotient `M` is exact:
`M * (k_1! * ... * k_{d-1}! * k_d!) = x!`. -/
theorem C2_scalar_is_multinomial :
    ∀ layers d x (ks : List Nat) s, 1 ≤ d →
      createPascalSimplex layers d = Except.ok s → x < layers →
      ks.length = d - 1 → ks.sum ≤ x →
      ∃ M, getEntry (s.getD x (PyVal.int 0)) (positionsOf x ks) = some (PyVal.int M) ∧
        M * ((ks.map Nat.factorial).prod * Nat.factorial (x - ks.sum)) = Nat.factorial x := by
  intro layers d x ks s hd hs hx hlen hsum
  rcases Nat.lt_or_ge d 2 with hd2 | hd2
  · have hd1 : d = 1 := by omega
    subst hd1
    rw [createPascalSimplex_one_dim] at hs
    cases hs
    have hks : ks = [] := List.length_eq_zero.mp (by omega)
    subst hks
    have hget : (List.replicate layers (PyVal.int 1)).getD x (PyVal.int 0) = PyVal.int 1 := by
      rw [List.getD_eq_getElem?_getD, List.getElem?_replicate, if_pos hx]
      rfl
    refine ⟨1, ?_, ?_⟩
    · rw [hget, positionsOf, getEntry_nil]
    · simp
  · rw [createPascalSimplex_two_le hd2] at hs
    cases hs
    obtain ⟨r, rfl⟩ : ∃ r, d = r + 2 := ⟨d - 2, by omega⟩
    have hget : (pascalList layers (r + 2)).getD x (PyVal.int 0) =
        generateLayer (factTable layers) x (r + 2) := by
      rw [List.getD_eq_getElem?_getD, pascalList_getElem? hx]
      rfl
    have hone : (1 : Nat) = prodFact [] := by simp [prodFact]
    refine ⟨Nat.factorial x / (prodFact [] * prodFact ks * Nat.factorial (x - ks.sum)), ?_, ?_⟩
    · rw [hget]
      have hlay : generateLayer (factTable layers) x (r + 2) =
          genEntry (factTable layers) x (r + 1) x (prodFact []) := by
        rw [generateLayer, ← hone]
        rfl
      rw [hlay]
      exact getEntry_genEntry hx r x [] ks (by omega) hsum (by simp)
    · rw [← hone, one_mul]
      rw [show (ks.map Nat.factorial).prod = prodFact ks from rfl]
      have hdvd : prodFact ks * Nat.factorial (x - ks.sum) ∣ Nat.factorial x :=
        prodFact_mul_factorial_dvd (show ks.sum + (x - ks.sum) = x by omega)
      exact Nat.div_mul_cancel hdvd

/-- Witness for C2: layer 2 of `createPascalSimplex(3, 2)` at multi-index
`(1)` (so `k_1 = 1`, implied `k_2 = 1`) holds `2!/(1!*1!) = 2`. -/
theorem C2_witness :
    ∃ M, getEntry (([PyVal.list [PyVal.int 1], PyVal.list [PyVal.int 1, PyVal.int 1],
        PyVal.list [PyVal.int 1, PyVal.int 2, PyVal.int 1]].getD 2 (PyVal.int 0)))
        (positionsOf 2 [1]) = some (PyVal.int M) ∧
      M * (([1].map Nat.factorial).prod * Nat.factorial (2 - [1].sum)) = Nat.factorial 2 :=
  C2_scalar_is_multinomial 3 2 2 [1] _ (by decide) (by rfl) (by decide) (by decide) (by decide)

/-- C3 (code bug): `calculateHypersumsInPascalSimplex` performs no slope
validation at all.  With slope `m = 0` on the one-layer two-dimensional
simplex, the per-layer walk recomputes `idx = 0 - i*0 = 0 >= 0` forever and
never breaks — the loop runs out of any finite fuel — instead of failing
fast with an InvalidParameter error as the specification requires. -/
theorem C3_slope_zero_loops_forever :
    createPascalSimplex 1 2 = Except.ok [PyVal.list [PyVal.int 1]] ∧
    (∀ fuel i acc, layerLoop [PyVal.list [PyVal.int 1]] 0 0 fuel i acc = LoopExit.fuelOut) ∧
    calculateHypersumsInPascalSimplex [PyVal.list [PyVal.int 1]] 0 = [none] := by
  have hloop : ∀ fuel i acc,
      layerLoop [PyVal.list [PyVal.int 1]] 0 0 fuel i acc = LoopExit.fuelOut := by
    intro fuel
    induction fuel with
    | zero => intro i acc; rfl
    | succ fuel ih =>
      intro i acc
      rw [layerLoop]
      have hcond : ¬ (((0 : Nat) : Int) - (i : Int) * (((0 : Nat) : Int)) < 0) := by
        simp
      rw [if_neg hcond]
      have hget : ([PyVal.list [PyVal.int 1]] :
            List PyVal)[(((0 : Nat) : Int) - (i : Int) * (((0 : Nat) : Int))).toNat]? =
          some (PyVal.list [PyVal.int 1]) := by
        norm_num
      rw [hget]
      exact ih (i + 1) _
  refine ⟨by rfl, hloop, ?_⟩
  show [(match layerLoop [PyVal.list [PyVal.int 1]] 0 0 (1 + 1) 0 0 with
        | LoopExit.normal a => some a
        | LoopExit.idxError a => some a
        | LoopExit.fuelOut => none)] = [none]
  rw [hloop]

/-- C4: for every simplex the builder returns (any `layers >= 0`, `d >= 1`)
and every slope `m >= 1`, every per-layer walk terminates (no entry is the
fuel-out marker) and the hypersum sequence has exactly one entry per layer. -/
theorem C4_hypersums_terminate_with_layer_count :
    ∀ layers d m s, 1 ≤ d → 1 ≤ m → createPascalSimplex layers d = Except.ok s →
      (calculateHypersumsInPascalSimplex s m).length = s.length ∧
      ∀ o ∈ calculateHypersumsInPascalSimplex s m, o.isSome = true := by
  intro layers d m s hd hm hs
  constructor
  · simp [calculateHypersumsInPascalSimplex]
  · intro o ho
    rw [hypersums_eq_sequence hd hm hs] at ho
    obtain ⟨t, _, rfl⟩ := List.mem_map.mp ho
    rfl

/-- Witness for C4 on `createPascalSimplex(2, 2)` with slope 1. -/
theorem C4_witness :
    (calculateHypersumsInPascalSimplex
        [PyVal.list [PyVal.int 1], PyVal.list [PyVal.int 1, PyVal.int 1]] 1).length =
      ([PyVal.list [PyVal.int 1], PyVal.list [PyVal.int 1, PyVal.int 1]] : List PyVal).length ∧
    ∀ o ∈ calculateHypersumsInPascalSimplex
        [PyVal.list [PyVal.int 1], PyVal.list [PyVal.int 1, PyVal.int 1]] 1, o.isSome = true :=
  C4_hypersums_terminate_with_layer_count 2 2 1 _ (by decide) (by decide) (by rfl)

/-- C5: the flatten-and-sum of layer `x` of a dimension-`d` simplex (the bare
scalar itself when `d = 1`) equals `d ^ x`. -/
theorem C5_layer_sum_is_dim_pow :
    ∀ layers d x s, 1 ≤ d → createPascalSimplex layers d = Except.ok s → x < layers →
      sumVal (s.getD x (PyVal.int 0)) = d ^ x := by
  intro layers d x s hd hs hx
  rcases Nat.lt_or_ge d 2 with hd2 | hd2
  · have hd1 : d = 1 := by omega
    subst hd1
    rw [createPascalSimplex_one_dim] at hs
    cases hs
    rw [List.getD_eq_getElem?_getD, List.getElem?_replicate, if_pos hx]
    simp [sumVal]
  · rw [createPascalSimplex_two_le hd2] at hs
    cases hs
    obtain ⟨r, rfl⟩ : ∃ r, d = r + 2 := ⟨d - 2, by omega⟩
    have hget : (pascalList layers (r + 2)).getD x (PyVal.int 0) =
        generateLayer (factTable layers) x (r + 2) := by
      rw [List.getD_eq_getElem?_getD, pascalList_getElem? hx]
      rfl
    have hone : (1 : Nat) = prodFact [] := by simp [prodFact]
    have hlay : generateLayer (factTable layers) x (r + 2) =
        genEntry (factTable layers) x (r + 1) x (prodFact []) := by
      rw [generateLayer, ← hone]
      rfl
    rw [hget, hlay, sumVal_genEntry hx r x [] (by simp)]
    rw [← hone, one_mul, Nat.div_self (Nat.factorial_pos x), one_mul]

/-- Witness for C5: layer 1 of `createPascalSimplex(2, 2)` sums to `2^1`. -/
theorem C5_witness :
    sumVal (([PyVal.list [PyVal.int 1],
        PyVal.list [PyVal.int 1, PyVal.int 1]].getD 1 (PyVal.int 0))) = 2 ^ 1 :=
  C5_layer_sum_is_dim_pow 2 2 1 _ (by decide) (by rfl) (by decide)

/-- C6: in dimension 1, `calculateSequence(1, m, k)` is `k` ones and the
hypersums of `createPascalSimplex(k, 1)` are likewise `k` ones, for every
slope `m >= 1`. -/
theorem C6_one_dimensional_ones :
    ∀ m k, 1 ≤ m →
      calculateSequence 1 m k = List.replicate k 1 ∧
      ∀ s, createPascalSimplex k 1 = Except.ok s →
        calculateHypersumsInPascalSimplex s m = List.replicate k (some 1) := by
  intro m k _
  constructor
  · rw [calculateSequence_eq_map]
    apply List.eq_replicate_iff.mpr
    constructor
    · simp
    · intro b hb
      obtain ⟨t, _, rfl⟩ := List.mem_map.mp hb
      exact seqF_one_dim t
  · intro s hs
    rw [createPascalSimplex_one_dim] at hs
    cases hs
    exact hypersums_one_dim k m

/-- Witness for C6 at slope 2, length 3. -/
theorem C6_witness :
    calculateSequence 1 2 3 = List.replicate 3 1 ∧
    ∀ s, createPascalSimplex 3 1 = Except.ok s →
      calculateHypersumsInPascalSimplex s 2 = List.replicate 3 (some 1) :=
  C6_one_dimensional_ones 2 3 (by decide)

/-- C7: `createPascalSimplex` rejects `dimension < 1` with the ValueError
message, accepts `layers = 0` for any valid dimension returning the empty
simplex, and `calculateSequence(d, m, 0)` is the empty sequence. -/
theorem C7_dimension_validation_and_empty :
    (∀ layers, createPascalSimplex layers 0 =
        Except.error "Dimension must be at least 1.") ∧
    (∀ d, 1 ≤ d → createPascalSimplex 0 d = Except.ok []) ∧
    (∀ d m, 1 ≤ d → 1 ≤ m → calculateSequence d m 0 = []) := by
  refine ⟨createPascalSimplex_dim_zero, ?_, ?_⟩
  · intro d hd
    rcases Nat.lt_or_ge d 2 with h2 | h2
    · have : d = 1 := by omega
      subst this
      rw [createPascalSimplex_one_dim]
      rfl
    · rw [createPascalSimplex_two_le h2]
      rfl
  · intro d m _ _
    rfl

/-- Witness for C7 at dimension 3, slope 2. -/
theorem C7_witness :
    createPascalSimplex 0 3 = Except.ok [] ∧ calculateSequence 3 2 0 = [] :=
  ⟨C7_dimension_validation_and_empty.2.1 3 (by decide),
   C7_dimension_validation_and_empty.2.2 3 2 (by decide) (by decide)⟩

/-- C8: in every coefficient computation of the `dimension >= 2` builder the
denominator divides `fact[x]` exactly — the checked-division variant of the
layer generator succeeds and returns the very layer the builder produces. -/
theorem C8_builder_divisions_exact :
    ∀ layers d x, 2 ≤ d → x < layers →
      genEntryChecked (factTable layers) x (d - 1) x 1 =
        some (generateLayer (factTable layers) x d) := by
  intro layers d x hd hx
  obtain ⟨r, rfl⟩ : ∃ r, d = r + 2 := ⟨d - 2, by omega⟩
  show genEntryChecked (factTable layers) x (r + 1) x (prodFact []) =
      some (genEntry (factTable layers) x (r + 1) x (prodFact []))
  exact genEntryChecked_eq hx r x [] (by simp)

/-- Witness for C8 on layer 2 in dimension 2 with 3 layers. -/
theorem C8_witness :
    genEntryChecked (factTable 3) 2 (2 - 1) 2 1 = some (generateLayer (factTable 3) 2 2) :=
  C8_builder_divisions_exact 3 2 2 (by decide) (by decide)

/-- C9: on a built simplex, with slope `m >= 1`, the IndexError branch of the
per-layer walk is unreachable: whenever `idx = L - i*m` is non-negative it is
at most `L`, hence within bounds, so the walk never exits through it. -/
theorem C9_index_error_unreachable :
    ∀ layers d m s, 1 ≤ d → 1 ≤ m → createPascalSimplex layers d = Except.ok s →
      ∀ L, L < s.length → ∀ fuel i acc badAcc,
        layerLoop s m L fuel i acc ≠ LoopExit.idxError badAcc := by
  intro layers d m s hd hm hs L hL fuel
  induction fuel with
  | zero =>
    intro i acc badAcc h
    rw [layerLoop] at h
    simp at h
  | succ fuel ih =>
    intro i acc badAcc h
    rw [layerLoop] at h
    by_cases hc : (L : Int) - (i : Int) * (m : Int) < 0
    · rw [if_pos hc] at h
      simp at h
    · rw [if_neg hc] at h
      have hmul : ((i : Int) * (m : Int)) = ((i * m : Nat) : Int) := by push_cast; ring
      have hidx : ((L : Int) - (i : Int) * (m : Int)).toNat < s.length := by
        rw [hmul]
        rw [hmul] at hc
        omega
      obtain ⟨v, hv⟩ : ∃ v, s[((L : Int) - (i : Int) * (m : Int)).toNat]? = some v :=
        ⟨_, List.getElem?_eq_getElem hidx⟩
      rw [hv] at h
      cases v with
      | int n => simp at h
      | list value => exact ih (i + 1) _ badAcc h

/-- Witness for C9 on `createPascalSimplex(2, 2)`, layer 1, slope 1. -/
theorem C9_witness :
    layerLoop [PyVal.list [PyVal.int 1], PyVal.list [PyVal.int 1, PyVal.int 1]] 1 1 4 0 0 ≠
      LoopExit.idxError 0 :=
  C9_index_error_unreachable 2 2 1 _ (by decide) (by decide) (by rfl) 1 (by decide) 4 0 0 0

/-- C10: for `k ≤ kp` and any valid dimension, `createPascalSimplex(k, d)` is
exactly the first `k` layers of `createPascalSimplex(kp, d)` — each layer
depends only on its own index and the dimension, not on the requested layer
count, despite the differently sized factorial tables. -/
theorem C10_simplex_prefix_stable :
    ∀ d k kp, 1 ≤ d → k ≤ kp →
      createPascalSimplex k d = (createPascalSimplex kp d).map (List.take k) := by
  intro d k kp hd hk
  rcases Nat.lt_or_ge d 2 with hd2 | hd2
  · have : d = 1 := by omega
    subst this
    rw [createPascalSimplex_one_dim, createPascalSimplex_one_dim]
    show Except.ok (List.replicate k (PyVal.int 1)) =
      Except.ok ((List.replicate kp (PyVal.int 1)).take k)
    rw [List.take_replicate, Nat.min_eq_left hk]
  · rw [createPascalSimplex_two_le hd2, createPascalSimplex_two_le hd2]
    show Except.ok (pascalList k d) = Except.ok ((pascalList kp d).take k)
    congr 1
    rw [pascalList, pascalList, ← List.map_take, List.take_range, Nat.min_eq_left hk]
    apply List.map_congr_left
    intro x hxmem
    have hx : x < k := List.mem_range.mp hxmem
    rw [generateLayer, generateLayer]
    exact genEntry_table_agnostic hx (by omega) (d - 1) x 1 (Nat.le_refl x)

/-- Witness for C10: `createPascalSimplex(2, 2)` is the 2-layer prefix of
`createPascalSimplex(4, 2)`. -/
theorem C10_witness :
    createPascalSimplex 2 2 = (createPascalSimplex 4 2).map (List.take 2) :=
  C10_simplex_prefix_stable 2 2 4 (by decide) (by decide)
